import Mathlib

/-!
# Dungeon instance scheduler (TO-P2.cpp)

A shallow embedding of the synchronisation core of `src/TO-P2.cpp`:
the shared player queue (`g_tanks`, `g_heals`, `g_dps`, `g_recruiting`),
the worker loop `dungeonWorker`, the bonus `playerGenerator`, the elapsed-time
computation of `statusMonitor` and the duration configuration of `main`.

Conventions.
* C++ `int` values are modelled as `Int`.  The additions of `playerGenerator`
  to the queue counters are not guarded and can pass `INT_MAX`; they are
  modelled with the 32-bit two's-complement wrap-around of the compiled
  program (`wrapInt`).  The subtractions of `dungeonWorker` are guarded by
  `canFormPartyLocked` and are exact.
* Every block of code that runs under `g_queueMutex` is one atomic step of the
  transition system: the mutex makes these blocks mutually exclusive, and the
  queue counters are read and written only inside them.
* Random draws (`durationDist`, `roleDist`) are inputs of the step functions.
-/

namespace DungeonQueue

/-! ## The shared player queue -/

/-- The globals `g_tanks`, `g_heals`, `g_dps` (lines 28-30) and the flag
`g_recruiting` (line 40). -/
structure Pool where
  tanks : Int
  heals : Int
  dps : Int
  recruiting : Bool
  deriving DecidableEq, Repr

/-- Line 78-80: `return (g_tanks >= 1 && g_heals >= 1 && g_dps >= 3);` -/
def canFormPartyLocked (p : Pool) : Bool :=
  decide (p.tanks ≥ 1) && decide (p.heals ≥ 1) && decide (p.dps ≥ 3)

/-- Lines 100-102: `g_tanks -= 1; g_heals -= 1; g_dps -= 3;` -/
def subtractParty (p : Pool) : Pool :=
  { p with tanks := p.tanks - 1, heals := p.heals - 1, dps := p.dps - 3 }

/-- Lines 96-102 of `dungeonWorker`: the test `if (!canFormPartyLocked()) break;`
followed by the three decrements.  The Boolean tells whether a party was
formed, the pool is the queue afterwards. -/
def checkAndSubtract (p : Pool) : Bool × Pool :=
  if !canFormPartyLocked p then (false, p) else (true, subtractParty p)

/-- The predicate of `g_cvPlayers.wait` (lines 92-94):
`canFormPartyLocked() || !g_recruiting.load()`. -/
def waitPredicate (p : Pool) : Bool :=
  canFormPartyLocked p || !p.recruiting

/-- What a worker does once its wait returns. -/
inductive WaitOutcome where
  | formed
  | noMoreSupply
  deriving DecidableEq, Repr

/-- Lines 92-102 of `dungeonWorker`, run with `g_queueMutex` held.  The result
is `none` while the wait predicate is false (the worker stays blocked in
`g_cvPlayers.wait`); otherwise the worker either leaves its loop (`break`) or
subtracts one party from the queue. -/
def awaitParty (p : Pool) : Option (WaitOutcome × Pool) :=
  if waitPredicate p then
    if !canFormPartyLocked p then some (WaitOutcome.noMoreSupply, p)
    else some (WaitOutcome.formed, subtractParty p)
  else none

/-- The function `stopRecruiting` of the specification: lines 185-188 of
`playerGenerator`, `g_recruiting.store(false)` under `g_queueMutex`. -/
def stopRecruiting (p : Pool) : Pool :=
  { p with recruiting := false }

/-- Lines 158-166 of `playerGenerator`: the amounts `(addT, addH, addD)` chosen
from the draw `choice = roleDist(rng)`. -/
def roleAdds (choice : Int) : Int × Int × Int :=
  if choice = 1 then (1, 0, 0)
  else if choice = 2 then (0, 1, 0)
  else (0, 0, 1)

/-- The largest value of a C++ `int`, `INT_MAX`. -/
def intMax : Int := 2147483647

/-- The result of a 32-bit `int` operation whose exact value is `x`:
`x` itself when it lies in `[-2147483648, 2147483647]`, and wrapped around
modulo `2^32` otherwise. -/
def wrapInt (x : Int) : Int :=
  (x + 2147483648) % 4294967296 - 2147483648

/-- Lines 170-172 of `playerGenerator`: `g_tanks += addT; g_heals += addH;
g_dps += addD;` on 32-bit `int` counters. -/
def addUnit (choice : Int) (p : Pool) : Pool :=
  { p with tanks := wrapInt (p.tanks + (roleAdds choice).1),
           heals := wrapInt (p.heals + (roleAdds choice).2.1),
           dps := wrapInt (p.dps + (roleAdds choice).2.2) }

/-- The units per role `(tanks, heals, dps)` that the draws `draws` of the
generator will add. -/
def pendingAdds : List Int → Int × Int × Int
  | [] => (0, 0, 0)
  | choice :: rest =>
    ((roleAdds choice).1 + (pendingAdds rest).1,
     (roleAdds choice).2.1 + (pendingAdds rest).2.1,
     (roleAdds choice).2.2 + (pendingAdds rest).2.2)

/-! ## Instances and worker threads -/

/-- The record `InstanceStats` (lines 11-25).  The time point
`currentRunStart` is a clock reading; the monitor model below receives the
elapsed whole seconds directly. -/
structure InstanceStats where
  id : Int
  active : Bool
  partiesServed : Int
  totalTime : Int
  currentRunDuration : Int
  deriving DecidableEq, Repr

/-- The constructor `InstanceStats(int id_)` (lines 21-24). -/
def InstanceStats.new (id : Int) : InstanceStats :=
  { id := id, active := false, partiesServed := 0, totalTime := 0, currentRunDuration := 0 }

/-- Control location of a worker thread inside `dungeonWorker`:
`waiting` at the top of the loop (lines 86-94), `running` after the queue
mutex is released (lines 125-138), `stopped` after `break` (line 97). -/
inductive Phase where
  | waiting
  | running
  | stopped
  deriving DecidableEq, Repr

/-- A worker thread together with the instance record it owns. -/
structure Worker where
  stats : InstanceStats
  phase : Phase
  deriving DecidableEq, Repr

/-- Lines 104-114 of `dungeonWorker`: the run fields and the atomics written
when a party has been formed, `runDuration` being the draw of line 104. -/
def startRun (st : InstanceStats) (runDuration : Int) : InstanceStats :=
  { st with currentRunDuration := runDuration,
            active := true,
            partiesServed := st.partiesServed + 1,
            totalTime := st.totalTime + runDuration }

/-- Line 133 of `dungeonWorker`: `stats->active.store(false)`. -/
def finishRun (st : InstanceStats) : InstanceStats :=
  { st with active := false }

/-- One step of a worker thread on the queue `p`.
In phase `waiting` it is the block of lines 89-123 (run under `g_queueMutex`):
not enabled while the wait predicate is false, `break` when no party can be
formed, otherwise the subtraction and the start of a run.  In phase `running`
it is lines 131-138 (the sleep is over, the instance becomes empty). -/
def workerStep (w : Worker) (p : Pool) (runDuration : Int) : Option (Worker × Pool) :=
  match w.phase with
  | Phase.waiting =>
    match awaitParty p with
    | none => none
    | some (WaitOutcome.noMoreSupply, q) => some ({ w with phase := Phase.stopped }, q)
    | some (WaitOutcome.formed, q) =>
      some ({ stats := startRun w.stats runDuration, phase := Phase.running }, q)
  | Phase.running => some ({ stats := finishRun w.stats, phase := Phase.waiting }, p)
  | Phase.stopped => none

/-! ## The whole run -/

/-- State of a run after `main` has started its threads.
`generator` is `some draws` while the `playerGenerator` thread is alive,
`draws` being the values `roleDist(rng)` will return in its remaining loop
iterations, and `none` when there is no generator thread (bonus disabled, or
the thread has finished).  `addedT`, `addedH`, `addedD` are history variables
counting the units the generator has added so far. -/
structure Sys where
  pool : Pool
  t1 : Int
  t2 : Int
  workers : List Worker
  generator : Option (List Int)
  addedT : Int
  addedH : Int
  addedD : Int
  deriving DecidableEq, Repr

/-- Lines 262-264 of `main`: `if (g_t1 > g_t2) std::swap(g_t1, g_t2);`.
The result is the pair `(g_t1, g_t2)`. -/
def swapDurations (t1 t2 : Int) : Int × Int :=
  if t1 > t2 then (t2, t1) else (t1, t2)

/-- Lines 262-300 of `main`: the state in which the threads start.  `n`, `t`,
`h`, `d`, `t1`, `t2` are the values read at the prompts, `useBonus` the answer
to the yes/no prompt and `draws` the role draws of the generator (one per
generation). -/
def initSys (n : Nat) (t h d t1 t2 : Int) (useBonus : Bool) (draws : List Int) : Sys :=
  { pool := { tanks := t, heals := h, dps := d, recruiting := useBonus },
    t1 := (swapDurations t1 t2).1,
    t2 := (swapDurations t1 t2).2,
    workers := (List.range n).map
      (fun (i : Nat) => { stats := InstanceStats.new ((i : Int) + 1), phase := Phase.waiting }),
    generator := if useBonus then some draws else none,
    addedT := 0, addedH := 0, addedD := 0 }

/-- No addition still to come can pass `INT_MAX`: each counter plus the units
the generator will still add to it is at most `intMax`.  True when there is no
generator. -/
def headroom (s : Sys) : Bool :=
  match s.generator with
  | none => true
  | some draws =>
    decide (s.pool.tanks + (pendingAdds draws).1 ≤ intMax) &&
    decide (s.pool.heals + (pendingAdds draws).2.1 ≤ intMax) &&
    decide (s.pool.dps + (pendingAdds draws).2.2 ≤ intMax)

/-- Worker `i` takes its next step, with `runDuration` the value its
`durationDist(rng)` returns if it forms a party. -/
def stepWorker (i : Nat) (runDuration : Int) (s : Sys) : Option Sys :=
  match s.workers[i]? with
  | none => none
  | some w =>
    match workerStep w s.pool runDuration with
    | none => none
    | some (w2, q) => some { s with pool := q, workers := s.workers.set i w2 }

/-- The generator thread takes its next step: one loop iteration of lines
155-183 (add one unit under `g_queueMutex`), or, after the loop, lines 185-189
(store `false` to `g_recruiting`) and the end of the thread. -/
def stepGenerator (s : Sys) : Option Sys :=
  match s.generator with
  | none => none
  | some [] => some { s with pool := stopRecruiting s.pool, generator := none }
  | some (choice :: rest) =>
    some { s with pool := addUnit choice s.pool,
                  generator := some rest,
                  addedT := s.addedT + (roleAdds choice).1,
                  addedH := s.addedH + (roleAdds choice).2.1,
                  addedD := s.addedD + (roleAdds choice).2.2 }

/-- One step of the run: some worker or the generator moves.  A worker draws
its run duration from the inclusive range `[g_t1, g_t2]` (line 84). -/
inductive Step : Sys → Sys → Prop where
  | worker (s s2 : Sys) (i : Nat) (runDuration : Int) :
      s.t1 ≤ runDuration → runDuration ≤ s.t2 →
      stepWorker i runDuration s = some s2 → Step s s2
  | generator (s s2 : Sys) : stepGenerator s = some s2 → Step s s2

/-- Executions of exactly `k` steps. -/
inductive StepsIn (s : Sys) : Nat → Sys → Prop where
  | zero : StepsIn s 0 s
  | succ (k : Nat) (s2 s3 : Sys) : StepsIn s k s2 → Step s2 s3 → StepsIn s (k + 1) s3

/-- Reachability: `s2` is reached from `s` by some interleaving of steps. -/
def Reaches (s s2 : Sys) : Prop := ∃ k, StepsIn s k s2

/-- Lines 318-326 of `main`: `totalParties`, the sum of `partiesServed` over
all instances. -/
def totalParties (s : Sys) : Int :=
  (s.workers.map (fun w => w.stats.partiesServed)).sum

/-- Some worker has left its loop. -/
def someStopped (s : Sys) : Bool :=
  s.workers.any (fun w => decide (w.phase = Phase.stopped))

/-- Every worker has left its loop (all `join` calls of lines 304-306 return). -/
def allStopped (s : Sys) : Bool :=
  s.workers.all (fun w => decide (w.phase = Phase.stopped))

/-- The number of parties the queue `(t, h, d)` can supply:
`min(t, h, floor(d / 3))`. -/
def supply (t h d : Int) : Int :=
  min t (min h (d / 3))

/-- A scheduler decision: `none` lets the generator move, `some (i, r)` lets
worker `i` move, `r` being the value of its duration draw. -/
abbrev Move := Option (Nat × Int)

/-- Runs the system along a list of scheduler decisions; `none` when a decision
names a thread that cannot move or a duration outside `[g_t1, g_t2]`. -/
def runSchedule : List Move → Sys → Option Sys
  | [], s => some s
  | none :: rest, s =>
    match stepGenerator s with
    | none => none
    | some s2 => runSchedule rest s2
  | some (i, r) :: rest, s =>
    if s.t1 ≤ r ∧ r ≤ s.t2 then
      match stepWorker i r s with
      | none => none
      | some s2 => runSchedule rest s2
    else none

/-- Rank of a worker phase: the number of steps the worker still takes when the
queue is empty and recruiting is over. -/
def phaseRank : Phase → Int
  | Phase.waiting => 1
  | Phase.running => 2
  | Phase.stopped => 0

/-- Number of steps left in a run without generator: two per party that can
still be formed, plus the rank of every worker. -/
def stepsLeft (s : Sys) : Int :=
  2 * supply s.pool.tanks s.pool.heals s.pool.dps + (s.workers.map (fun w => phaseRank w.phase)).sum

/-! ## The status monitor -/

/-- Lines 199-234 of `statusMonitor` for one instance: from the snapshot
(`isActive` of line 199, `diff` the whole seconds of `now - currentRunStart`,
`currentRunDuration` read under `runMutex`) the pair printed after `time:`,
`elapsedThisRun / runDuration` for an active instance and `0/0` otherwise. -/
def monitorTime (isActive : Bool) (diff currentRunDuration : Int) : Int × Int :=
  if isActive then
    if currentRunDuration > 0 then
      ((if (if diff < 0 then 0 else diff) > currentRunDuration then currentRunDuration
        else (if diff < 0 then 0 else diff)), currentRunDuration)
    else (0, currentRunDuration)
  else (0, 0)

/-- The function `clamp(x, lo, hi)` of the specification: `x` limited to the
range from `lo` to `hi`. -/
def clamp (x lo hi : Int) : Int :=
  max lo (min x hi)

/-! ## Configuration prompts of `main` -/

/-- The standard input, one entry per extraction `std::cin >> value`:
`some v` when an `int` of value `v` is read, `none` when the extraction fails
(the rest of that line is then discarded). -/
abbrev Input := List (Option Int)

/-- Lines 44-56, `readPositiveInt`: asks again until a value `> 0` is read.
Returns the value and the remaining input; `none` when the input ends first. -/
def readPositiveInt : Input → Option (Int × Input)
  | [] => none
  | none :: rest => readPositiveInt rest
  | some v :: rest => if v ≤ 0 then readPositiveInt rest else some (v, rest)

/-- Lines 256-260 of `main`: `g_t2 = readPositiveInt(...)` repeated until
`g_t2 <= 15`. -/
def readMaxDuration : Input → Option (Int × Input)
  | [] => none
  | none :: rest => readMaxDuration rest
  | some v :: rest =>
    if v ≤ 0 then readMaxDuration rest
    else if v ≤ 15 then some (v, rest)
    else readMaxDuration rest

/-- Lines 254-264 of `main`: reads `g_t1`, then `g_t2`, then swaps them when
`g_t1 > g_t2`.  The result is the effective pair `(g_t1, g_t2)` from which
`dungeonWorker` builds `durationDist(g_t1, g_t2)` (line 84). -/
def readDurations (input : Input) : Option (Int × Int) :=
  match readPositiveInt input with
  | none => none
  | some (t1, rest) =>
    match readMaxDuration rest with
    | none => none
    | some (t2, _) => some (swapDurations t1 t2)

/-! ## Locks taken by a worker -/

/-- The three mutexes a worker touches: `g_queueMutex`, its own
`stats->runMutex`, and `g_coutMutex`. -/
inductive Mutex where
  | queue
  | run
  | cout
  deriving DecidableEq, Repr

/-- The statements of `dungeonWorker` that matter for locking. -/
inductive Action where
  | lock (m : Mutex)
  | unlock (m : Mutex)
  | cvWait
  | subtract
  | drawDuration
  | writeRunFields
  | updateAtomics
  | print
  | sleep
  | clearActive
  deriving DecidableEq, Repr

/-- One pass through the loop body of `dungeonWorker` (lines 86-139), as the
sequence of its statements; `p` is the queue at the moment the wait of line 92
returns.  On `break` the pass ends with the epilogue of lines 141-145. -/
def workerPass (p : Pool) : List Action :=
  [Action.lock Mutex.queue, Action.cvWait] ++
  (if !canFormPartyLocked p then
    [Action.unlock Mutex.queue, Action.lock Mutex.cout, Action.unlock Mutex.cout]
  else
    [Action.subtract, Action.drawDuration,
     Action.lock Mutex.run, Action.writeRunFields, Action.unlock Mutex.run,
     Action.updateAtomics,
     Action.lock Mutex.cout, Action.print, Action.unlock Mutex.cout,
     Action.unlock Mutex.queue,
     Action.lock Mutex.cout, Action.print, Action.unlock Mutex.cout,
     Action.sleep,
     Action.clearActive,
     Action.lock Mutex.cout, Action.print, Action.unlock Mutex.cout])

/-- The locks held after an action, given those held before it. -/
def holdAfter (held : List Mutex) : Action → List Mutex
  | Action.lock m => m :: held
  | Action.unlock m => held.erase m
  | _ => held

/-- Pairs every action of a trace with the locks the thread holds right
before it, starting from `held`. -/
def heldBefore : List Mutex → List Action → List (List Mutex × Action)
  | _, [] => []
  | held, a :: rest => (held, a) :: heldBefore (holdAfter held a) rest

/-- The locks held at the end of a trace. -/
def heldAtEnd (held : List Mutex) (trace : List Action) : List Mutex :=
  trace.foldl holdAfter held

/-- The claimed discipline at one action: `runMutex` is not acquired while
`g_queueMutex` is held, and the run fields are not written while it is held. -/
def noNesting (x : List Mutex × Action) : Bool :=
  !((x.2 = Action.lock Mutex.run || x.2 = Action.writeRunFields) && x.1.contains Mutex.queue)

/-- The discipline the code follows at one action, the held locks being listed
most recent first: `runMutex` is acquired with exactly `g_queueMutex` held;
the run fields are written, and `runMutex` is released, with exactly
`runMutex` and `g_queueMutex` held; `g_queueMutex` is released when it is the
only lock held, so after `runMutex`; no lock is acquired while `runMutex` is
held; `g_coutMutex` is released when it is the most recent lock; and
`g_queueMutex` is acquired and the thread sleeps with no lock held. -/
def nestedDiscipline (x : List Mutex × Action) : Bool :=
  match x.2 with
  | Action.lock Mutex.run => x.1 == [Mutex.queue]
  | Action.lock Mutex.queue => x.1 == []
  | Action.lock Mutex.cout => !x.1.contains Mutex.run
  | Action.writeRunFields => x.1 == [Mutex.run, Mutex.queue]
  | Action.unlock Mutex.run => x.1 == [Mutex.run, Mutex.queue]
  | Action.unlock Mutex.queue => x.1 == [Mutex.queue]
  | Action.unlock Mutex.cout => x.1.head? == some Mutex.cout
  | Action.sleep => x.1 == []
  | _ => true

theorem canFormPartyLocked_iff (p : Pool) :
    canFormPartyLocked p = true ↔ p.tanks ≥ 1 ∧ p.heals ≥ 1 ∧ p.dps ≥ 3 := by
  simp [canFormPartyLocked, and_assoc]

theorem canFormPartyLocked_false_iff (p : Pool) :
    canFormPartyLocked p = false ↔ ¬ (p.tanks ≥ 1 ∧ p.heals ≥ 1 ∧ p.dps ≥ 3) := by
  rw [← canFormPartyLocked_iff]; simp

/-- C1: the check-and-subtract step forms a party iff `tanks ≥ 1 ∧ heals ≥ 1 ∧
dps ≥ 3` held before it; when it forms one the counters become
`(tanks - 1, heals - 1, dps - 3)`, otherwise the queue is unchanged. -/
theorem checkAndSubtract_spec (p : Pool) :
    ((checkAndSubtract p).1 = true ↔ p.tanks ≥ 1 ∧ p.heals ≥ 1 ∧ p.dps ≥ 3) ∧
    ((checkAndSubtract p).1 = true →
      (checkAndSubtract p).2.tanks = p.tanks - 1 ∧
      (checkAndSubtract p).2.heals = p.heals - 1 ∧
      (checkAndSubtract p).2.dps = p.dps - 3 ∧
      (checkAndSubtract p).2.recruiting = p.recruiting) ∧
    ((checkAndSubtract p).1 = false → (checkAndSubtract p).2 = p) := by
  rw [← canFormPartyLocked_iff]
  unfold checkAndSubtract
  cases h : canFormPartyLocked p <;> simp [subtractParty]

theorem workerStep_cases (w w2 : Worker) (p q : Pool) (r : Int)
    (h : workerStep w p r = some (w2, q)) :
    (w.phase = Phase.waiting ∧ waitPredicate p = true ∧ canFormPartyLocked p = false ∧
      w2 = { w with phase := Phase.stopped } ∧ q = p) ∨
    (w.phase = Phase.waiting ∧ canFormPartyLocked p = true ∧
      w2 = { stats := startRun w.stats r, phase := Phase.running } ∧ q = subtractParty p) ∨
    (w.phase = Phase.running ∧
      w2 = { stats := finishRun w.stats, phase := Phase.waiting } ∧ q = p) := by
  unfold workerStep at h
  cases hph : w.phase <;> rw [hph] at h <;> simp only at h
  · unfold awaitParty at h
    cases hw : waitPredicate p <;> rw [hw] at h
    · simp at h
    · cases hc : canFormPartyLocked p <;> rw [hc] at h <;> simp at h
      · exact Or.inl ⟨rfl, rfl, rfl, h.1.symm, h.2.symm⟩
      · exact Or.inr (Or.inl ⟨rfl, rfl, h.1.symm, h.2.symm⟩)
  · simp at h
    exact Or.inr (Or.inr ⟨rfl, h.1.symm, h.2.symm⟩)
  · simp at h

theorem stepWorker_cases (i : Nat) (r : Int) (s s2 : Sys) (h : stepWorker i r s = some s2) :
    ∃ w w2 q, s.workers[i]? = some w ∧ workerStep w s.pool r = some (w2, q) ∧
      s2 = { s with pool := q, workers := s.workers.set i w2 } := by
  unfold stepWorker at h
  cases hw : s.workers[i]? with
  | none => rw [hw] at h; simp at h
  | some w =>
    rw [hw] at h
    simp only at h
    cases hs : workerStep w s.pool r with
    | none => rw [hs] at h; simp at h
    | some x =>
      obtain ⟨w2, q⟩ := x
      rw [hs] at h
      simp only [Option.some.injEq] at h
      exact ⟨w, w2, q, rfl, hs, h.symm⟩

theorem stepGenerator_cases (s s2 : Sys) (h : stepGenerator s = some s2) :
    (s.generator = some [] ∧
      s2 = { s with pool := stopRecruiting s.pool, generator := none }) ∨
    (∃ choice rest, s.generator = some (choice :: rest) ∧
      s2 = { s with pool := addUnit choice s.pool,
                    generator := some rest,
                    addedT := s.addedT + (roleAdds choice).1,
                    addedH := s.addedH + (roleAdds choice).2.1,
                    addedD := s.addedD + (roleAdds choice).2.2 }) := by
  unfold stepGenerator at h
  cases hg : s.generator with
  | none => rw [hg] at h; simp at h
  | some l =>
    cases l with
    | nil =>
      rw [hg] at h
      simp only [Option.some.injEq] at h
      exact Or.inl ⟨rfl, h.symm⟩
    | cons c rest =>
      rw [hg] at h
      simp only [Option.some.injEq] at h
      exact Or.inr ⟨c, rest, rfl, h.symm⟩

theorem roleAdds_cases (choice : Int) :
    roleAdds choice = (1, 0, 0) ∨ roleAdds choice = (0, 1, 0) ∨ roleAdds choice = (0, 0, 1) := by
  unfold roleAdds
  split
  · exact Or.inl rfl
  · split
    · exact Or.inr (Or.inl rfl)
    · exact Or.inr (Or.inr rfl)

/-- Every step changes the queue in one of four ways: not at all, by
subtracting a party that could be formed, by adding one unit, or by the store
of `false` to `g_recruiting`. -/
theorem Step.pool_cases {s s2 : Sys} (h : Step s s2) :
    s2.pool = s.pool ∨
    (canFormPartyLocked s.pool = true ∧ s2.pool = subtractParty s.pool) ∨
    (∃ choice, s2.pool = addUnit choice s.pool) ∨
    s2.pool = stopRecruiting s.pool := by
  cases h with
  | worker i r h1 h2 hs =>
    obtain ⟨w, w2, q, _, hws, rfl⟩ := stepWorker_cases i r s s2 hs
    rcases workerStep_cases w w2 s.pool q r hws with h | h | h
    · exact Or.inl h.2.2.2.2
    · exact Or.inr (Or.inl ⟨h.2.1, h.2.2.2⟩)
    · exact Or.inl h.2.2
  | generator hs =>
    rcases stepGenerator_cases s s2 hs with h | ⟨c, rest, _, h⟩
    · exact Or.inr (Or.inr (Or.inr (by rw [h.2])))
    · exact Or.inr (Or.inr (Or.inl ⟨c, by rw [h]⟩))

/-- The five kinds of step, with the state each one produces. -/
theorem Step.kinds {s s2 : Sys} (h : Step s s2) :
    (∃ i w, s.workers[i]? = some w ∧ w.phase = Phase.waiting ∧
      waitPredicate s.pool = true ∧ canFormPartyLocked s.pool = false ∧
      s2 = { s with workers := s.workers.set i { w with phase := Phase.stopped } }) ∨
    (∃ i w r, s.workers[i]? = some w ∧ w.phase = Phase.waiting ∧
      canFormPartyLocked s.pool = true ∧
      s2 = { s with pool := subtractParty s.pool,
                    workers := s.workers.set i
                      { stats := startRun w.stats r, phase := Phase.running } }) ∨
    (∃ i w, s.workers[i]? = some w ∧ w.phase = Phase.running ∧
      s2 = { s with workers := s.workers.set i
                      { stats := finishRun w.stats, phase := Phase.waiting } }) ∨
    (s.generator = some [] ∧
      s2 = { s with pool := stopRecruiting s.pool, generator := none }) ∨
    (∃ choice rest, s.generator = some (choice :: rest) ∧
      s2 = { s with pool := addUnit choice s.pool,
                    generator := some rest,
                    addedT := s.addedT + (roleAdds choice).1,
                    addedH := s.addedH + (roleAdds choice).2.1,
                    addedD := s.addedD + (roleAdds choice).2.2 }) := by
  cases h with
  | worker i r h1 h2 hs =>
    obtain ⟨w, w2, q, hw, hws, rfl⟩ := stepWorker_cases i r s s2 hs
    rcases workerStep_cases w w2 s.pool q r hws with h | h | h
    · obtain ⟨hp, hwp, hc, rfl, rfl⟩ := h
      exact Or.inl ⟨i, w, hw, hp, hwp, hc, rfl⟩
    · obtain ⟨hp, hc, rfl, rfl⟩ := h
      exact Or.inr (Or.inl ⟨i, w, r, hw, hp, hc, rfl⟩)
    · obtain ⟨hp, rfl, rfl⟩ := h
      exact Or.inr (Or.inr (Or.inl ⟨i, w, hw, hp, rfl⟩))
  | generator hs =>
    rcases stepGenerator_cases s s2 hs with h | h
    · exact Or.inr (Or.inr (Or.inr (Or.inl h)))
    · exact Or.inr (Or.inr (Or.inr (Or.inr h)))

/-! ## Lists of workers -/

theorem sum_map_set (f : Worker → Int) (l : List Worker) (i : Nat) (w w2 : Worker)
    (h : l[i]? = some w) :
    ((l.set i w2).map f).sum = (l.map f).sum - f w + f w2 := by
  induction l generalizing i with
  | nil => simp at h
  | cons a l ih =>
    cases i with
    | zero =>
      simp only [List.getElem?_cons_zero, Option.some.injEq] at h
      subst h
      simp only [List.set_cons_zero, List.map_cons, List.sum_cons]
      ring
    | succ i =>
      simp only [List.getElem?_cons_succ] at h
      simp only [List.set_cons_succ, List.map_cons, List.sum_cons]
      rw [ih i h]
      ring

theorem any_set (f : Worker → Bool) (l : List Worker) (i : Nat) (w2 : Worker)
    (h : (l.set i w2).any f = true) : f w2 = true ∨ l.any f = true := by
  induction l generalizing i with
  | nil => simp at h
  | cons a l ih =>
    cases i with
    | zero =>
      simp only [List.set_cons_zero, List.any_cons, Bool.or_eq_true] at h ⊢
      rcases h with h | h
      · exact Or.inl h
      · exact Or.inr (Or.inr h)
    | succ i =>
      simp only [List.set_cons_succ, List.any_cons, Bool.or_eq_true] at h ⊢
      rcases h with h | h
      · exact Or.inr (Or.inl h)
      · rcases ih i h with h | h
        · exact Or.inl h
        · exact Or.inr (Or.inr h)

theorem any_of_getElem (f : Worker → Bool) (l : List Worker) (i : Nat) (w : Worker)
    (h : l[i]? = some w) (hf : f w = true) : l.any f = true := by
  rw [List.any_eq_true]
  exact ⟨w, List.getElem?_mem h, hf⟩

theorem exists_of_all_false (f : Worker → Bool) (l : List Worker) (h : l.all f = false) :
    ∃ (i : Nat) (w : Worker), l[i]? = some w ∧ f w = false := by
  induction l with
  | nil => simp at h
  | cons a l ih =>
    simp only [List.all_cons, Bool.and_eq_false_iff] at h
    rcases h with h | h
    · exact ⟨0, a, by simp, h⟩
    · obtain ⟨i, w, hw, hf⟩ := ih h
      exact ⟨i + 1, w, by simpa using hw, hf⟩

theorem any_of_all (f : Worker → Bool) (l : List Worker) (hl : 0 < l.length)
    (h : l.all f = true) : l.any f = true := by
  cases l with
  | nil => simp at hl
  | cons a l =>
    simp only [List.all_cons, Bool.and_eq_true] at h
    simp [h.1]

theorem Reaches.refl (s : Sys) : Reaches s s := ⟨0, StepsIn.zero⟩

theorem Reaches.tail {s s2 s3 : Sys} (h : Reaches s s2) (hs : Step s2 s3) : Reaches s s3 := by
  obtain ⟨k, hk⟩ := h
  exact ⟨k + 1, StepsIn.succ k s2 s3 hk hs⟩

/-- Induction over reachable states. -/
theorem Reaches.invariant {s0 : Sys} (P : Sys → Prop) (h0 : P s0)
    (hstep : ∀ s s2, Reaches s0 s → P s → Step s s2 → P s2) :
    ∀ s, Reaches s0 s → P s := by
  intro s ⟨k, hk⟩
  induction hk with
  | zero => exact h0
  | succ k s2 s3 hk hs ih => exact hstep s2 s3 ⟨k, hk⟩ ih hs

theorem StepsIn.cons {k : Nat} {s s2 s3 : Sys} (hs : Step s s2) (h : StepsIn s2 k s3) :
    StepsIn s (k + 1) s3 := by
  induction h with
  | zero => exact StepsIn.succ 0 s s2 StepsIn.zero hs
  | succ k a b hk hab ih => exact StepsIn.succ (k + 1) a b ih hab

/-- A schedule that runs to the end is an execution of the system. -/
theorem runSchedule_stepsIn (moves : List Move) (s s2 : Sys)
    (h : runSchedule moves s = some s2) : StepsIn s moves.length s2 := by
  induction moves generalizing s with
  | nil =>
    simp only [runSchedule, Option.some.injEq] at h
    subst h
    exact StepsIn.zero
  | cons m rest ih =>
    cases m with
    | none =>
      simp only [runSchedule] at h
      cases hg : stepGenerator s with
      | none => rw [hg] at h; simp at h
      | some s1 =>
        rw [hg] at h
        exact StepsIn.cons (Step.generator s s1 hg) (ih s1 h)
    | some x =>
      obtain ⟨i, r⟩ := x
      simp only [runSchedule] at h
      by_cases hr : s.t1 ≤ r ∧ r ≤ s.t2
      · rw [if_pos hr] at h
        cases hw : stepWorker i r s with
        | none => rw [hw] at h; simp at h
        | some s1 =>
          rw [hw] at h
          exact StepsIn.cons (Step.worker s s1 i r hr.1 hr.2 hw) (ih s1 h)
      · rw [if_neg hr] at h
        simp at h

theorem runSchedule_reaches (moves : List Move) (s s2 : Sys)
    (h : runSchedule moves s = some s2) : Reaches s s2 :=
  ⟨moves.length, runSchedule_stepsIn moves s s2 h⟩

/-! ## Counters never go negative -/

theorem wrapInt_eq (x : Int) (h1 : 0 ≤ x) (h2 : x ≤ intMax) : wrapInt x = x := by
  unfold intMax at h2
  unfold wrapInt
  omega

theorem roleAdds_nonneg (choice : Int) :
    0 ≤ (roleAdds choice).1 ∧ 0 ≤ (roleAdds choice).2.1 ∧ 0 ≤ (roleAdds choice).2.2 := by
  rcases roleAdds_cases choice with e | e | e <;> rw [e] <;> simp

theorem pendingAdds_nonneg (draws : List Int) :
    0 ≤ (pendingAdds draws).1 ∧ 0 ≤ (pendingAdds draws).2.1 ∧ 0 ≤ (pendingAdds draws).2.2 := by
  induction draws with
  | nil => simp [pendingAdds]
  | cons c rest ih =>
    have := roleAdds_nonneg c
    simp only [pendingAdds]
    omega

/-- An addition that stays within `[0, INT_MAX]` is exact. -/
theorem addUnit_exact (choice : Int) (p : Pool)
    (hnn : 0 ≤ p.tanks ∧ 0 ≤ p.heals ∧ 0 ≤ p.dps)
    (hmax : p.tanks + (roleAdds choice).1 ≤ intMax ∧ p.heals + (roleAdds choice).2.1 ≤ intMax ∧
      p.dps + (roleAdds choice).2.2 ≤ intMax) :
    addUnit choice p =
      { p with tanks := p.tanks + (roleAdds choice).1,
               heals := p.heals + (roleAdds choice).2.1,
               dps := p.dps + (roleAdds choice).2.2 } := by
  have hr := roleAdds_nonneg choice
  unfold addUnit
  rw [wrapInt_eq _ (by omega) hmax.1, wrapInt_eq _ (by omega) hmax.2.1,
    wrapInt_eq _ (by omega) hmax.2.2]

theorem headroom_iff (s : Sys) :
    headroom s = true ↔ ∀ draws, s.generator = some draws →
      s.pool.tanks + (pendingAdds draws).1 ≤ intMax ∧
      s.pool.heals + (pendingAdds draws).2.1 ≤ intMax ∧
      s.pool.dps + (pendingAdds draws).2.2 ≤ intMax := by
  unfold headroom
  cases s.generator <;> simp [and_assoc]

/-- While every addition still to come fits in an `int`, the counters stay
non-negative and the additions still to come keep fitting. -/
theorem Reaches.pool_nonneg {s0 s : Sys}
    (h0 : 0 ≤ s0.pool.tanks ∧ 0 ≤ s0.pool.heals ∧ 0 ≤ s0.pool.dps)
    (hroom : headroom s0 = true) (hr : Reaches s0 s) :
    (0 ≤ s.pool.tanks ∧ 0 ≤ s.pool.heals ∧ 0 ≤ s.pool.dps) ∧ headroom s = true := by
  refine Reaches.invariant (fun s =>
    (0 ≤ s.pool.tanks ∧ 0 ≤ s.pool.heals ∧ 0 ≤ s.pool.dps) ∧ headroom s = true)
    ⟨h0, hroom⟩ ?_ s hr
  intro a b _ ha hab
  rcases Step.kinds hab with ⟨i, w, _, _, _, _, rfl⟩ | ⟨i, w, r, _, _, hc, rfl⟩ |
    ⟨i, w, _, _, rfl⟩ | ⟨_, rfl⟩ | ⟨c, rest, hg, rfl⟩
  · exact ha
  · rw [canFormPartyLocked_iff] at hc
    refine ⟨?_, ?_⟩
    · dsimp only [subtractParty]
      omega
    · rw [headroom_iff]
      intro draws hgb
      have := (headroom_iff a).1 ha.2 draws hgb
      dsimp only [subtractParty]
      omega
  · exact ha
  · exact ⟨ha.1, rfl⟩
  · have hroom_a := (headroom_iff a).1 ha.2 _ hg
    simp only [pendingAdds] at hroom_a
    have hp := pendingAdds_nonneg rest
    have hra := roleAdds_nonneg c
    have hex := addUnit_exact c a.pool ha.1 ⟨by omega, by omega, by omega⟩
    refine ⟨?_, ?_⟩
    · dsimp only
      rw [hex]
      dsimp only
      omega
    · rw [headroom_iff]
      intro draws hgb
      dsimp only at hgb ⊢
      simp only [Option.some.injEq] at hgb
      subst hgb
      rw [hex]
      dsimp only
      omega

/-- C2 as stated fails: `main` accepts `t = 2147483647`, `h = 1`, `d = 1` with
the bonus generator enabled; no party can be formed, and when the generator
adds a tank the 32-bit counter `g_tanks` wraps to `-2147483648`. -/
theorem counters_negative_after_overflow :
    ((0:Int) ≤ 2147483647 ∧ (0:Int) ≤ 1 ∧ (0:Int) ≤ 1) ∧
    Reaches (initSys 1 2147483647 1 1 1 1 true [1])
      { pool := ⟨-2147483648, 1, 1, true⟩, t1 := 1, t2 := 1,
        workers := [⟨⟨1, false, 0, 0, 0⟩, Phase.waiting⟩],
        generator := some [], addedT := 1, addedH := 0, addedD := 0 } ∧
    ¬ (0 ≤ (-2147483648 : Int)) :=
  ⟨by decide,
    runSchedule_reaches [none] (initSys 1 2147483647 1 1 1 1 true [1]) _ (by decide),
    by decide⟩

/-- C2 amended: from every state with `tanks ≥ 0`, `heals ≥ 0`, `dps ≥ 0` in
which each counter plus the units the generator will still add to it is at
most `INT_MAX`, every state reached by any interleaving of worker steps,
generator additions and the stop-recruiting step still has `tanks ≥ 0`,
`heals ≥ 0` and `dps ≥ 0`. -/
theorem counters_nonneg (s0 s : Sys)
    (h0 : 0 ≤ s0.pool.tanks ∧ 0 ≤ s0.pool.heals ∧ 0 ≤ s0.pool.dps)
    (hroom : headroom s0 = true)
    (hr : Reaches s0 s) :
    0 ≤ s.pool.tanks ∧ 0 ≤ s.pool.heals ∧ 0 ≤ s.pool.dps :=
  (Reaches.pool_nonneg h0 hroom hr).1

theorem counters_nonneg_witness :
    headroom (initSys 2 1 1 4 1 1 true [3, 1]) = true ∧
    Reaches (initSys 2 1 1 4 1 1 true [3, 1])
      { pool := ⟨1, 0, 2, false⟩, t1 := 1, t2 := 1,
        workers := [⟨⟨1, true, 1, 1, 1⟩, Phase.running⟩, ⟨⟨2, false, 0, 0, 0⟩, Phase.waiting⟩],
        generator := none, addedT := 1, addedH := 0, addedD := 1 } ∧
    (0:Int) ≤ 1 ∧ (0:Int) ≤ 0 ∧ (0:Int) ≤ 2 :=
  have hr := runSchedule_reaches [none, some (0, 1), none, none] (initSys 2 1 1 4 1 1 true [3, 1])
    _ (by decide)
  ⟨by decide, hr, counters_nonneg _ _ (by decide) (by decide) hr⟩

/-! ## Stopping recruitment -/

/-- C7: the stop-recruiting step is idempotent, leaves the three counters
unchanged, and no step of the run changes `recruiting` from false to true. -/
theorem stopRecruiting_idempotent (p : Pool) :
    stopRecruiting (stopRecruiting p) = stopRecruiting p ∧
    (stopRecruiting p).tanks = p.tanks ∧
    (stopRecruiting p).heals = p.heals ∧
    (stopRecruiting p).dps = p.dps ∧
    (stopRecruiting p).recruiting = false ∧
    (∀ s s2 : Sys, Step s s2 → s.pool.recruiting = false → s2.pool.recruiting = false) := by
  refine ⟨rfl, rfl, rfl, rfl, rfl, ?_⟩
  intro s s2 hs hrec
  rcases Step.pool_cases hs with h | ⟨_, h⟩ | ⟨c, h⟩ | h
  · rw [h]; exact hrec
  · rw [h]; exact hrec
  · rw [h]; exact hrec
  · rw [h]; rfl

/-! ## Conservation -/

theorem Reaches.conserved {s0 s : Sys}
    (h0 : 0 ≤ s0.pool.tanks ∧ 0 ≤ s0.pool.heals ∧ 0 ≤ s0.pool.dps)
    (hroom : headroom s0 = true) (hr : Reaches s0 s) :
    (s0.pool.tanks + (s.addedT - s0.addedT)) - s.pool.tanks = totalParties s - totalParties s0 ∧
    (s0.pool.heals + (s.addedH - s0.addedH)) - s.pool.heals = totalParties s - totalParties s0 ∧
    (s0.pool.dps + (s.addedD - s0.addedD)) - s.pool.dps
      = 3 * (totalParties s - totalParties s0) := by
  refine Reaches.invariant (fun s =>
    (s0.pool.tanks + (s.addedT - s0.addedT)) - s.pool.tanks = totalParties s - totalParties s0 ∧
    (s0.pool.heals + (s.addedH - s0.addedH)) - s.pool.heals = totalParties s - totalParties s0 ∧
    (s0.pool.dps + (s.addedD - s0.addedD)) - s.pool.dps
      = 3 * (totalParties s - totalParties s0)) ?_ ?_ s hr
  · simp
  · intro a b hra ha hab
    have hsafe := Reaches.pool_nonneg h0 hroom hra
    simp only [totalParties] at ha ⊢
    rcases Step.kinds hab with ⟨i, w, hw, _, _, _, rfl⟩ | ⟨i, w, r, hw, _, _, rfl⟩ |
      ⟨i, w, hw, _, rfl⟩ | ⟨_, rfl⟩ | ⟨c, rest, hg, rfl⟩
    · dsimp only
      rw [sum_map_set _ _ i w _ hw]
      dsimp only
      omega
    · dsimp only [subtractParty, startRun]
      rw [sum_map_set _ _ i w _ hw]
      dsimp only
      omega
    · dsimp only [finishRun]
      rw [sum_map_set _ _ i w _ hw]
      dsimp only
      omega
    · dsimp only [stopRecruiting]
      omega
    · have hroom_a := (headroom_iff a).1 hsafe.2 _ hg
      simp only [pendingAdds] at hroom_a
      have hp := pendingAdds_nonneg rest
      have hex := addUnit_exact c a.pool hsafe.1 ⟨by omega, by omega, by omega⟩
      dsimp only
      rw [hex]
      dsimp only
      omega

theorem totalParties_initSys (n : Nat) (t h d t1 t2 : Int) (useBonus : Bool) (draws : List Int) :
    totalParties (initSys n t h d t1 t2 useBonus draws) = 0 := by
  apply List.sum_eq_zero
  intro x hx
  simp only [initSys, List.mem_map] at hx
  obtain ⟨w, ⟨i, _, rfl⟩, rfl⟩ := hx
  rfl

/-- C3 as stated fails: with `t = 2147483647`, `h = 1`, `d = 1` and the bonus
generator enabled, after the generator has added one tank the 32-bit counter
`g_tanks` holds `-2147483648`, no party has been formed, and
`(t + addedT) - tanks` is `4294967296`, not the number of parties `0`. -/
theorem conservation_fails_after_overflow :
    Reaches (initSys 1 2147483647 1 1 1 1 true [1])
      { pool := ⟨-2147483648, 1, 1, true⟩, t1 := 1, t2 := 1,
        workers := [⟨⟨1, false, 0, 0, 0⟩, Phase.waiting⟩],
        generator := some [], addedT := 1, addedH := 0, addedD := 0 } ∧
    totalParties
      { pool := ⟨-2147483648, 1, 1, true⟩, t1 := 1, t2 := 1,
        workers := [⟨⟨1, false, 0, 0, 0⟩, Phase.waiting⟩],
        generator := some [], addedT := 1, addedH := 0, addedD := 0 } = 0 ∧
    ((2147483647 : Int) + 1) - (-2147483648) = 4294967296 ∧
    ¬ (((2147483647 : Int) + 1) - (-2147483648) = 0) :=
  ⟨runSchedule_reaches [none] (initSys 1 2147483647 1 1 1 1 true [1]) _ (by decide),
    by decide, by decide, by decide⟩

/-- C3 amended: in every reachable state of a run whose initial counts are
non-negative and in which each initial count plus the units the generator will
add to it is at most `INT_MAX`, with `P = totalParties` the sum of
`partiesServed` over all instances, `(t + addedT) - tanks = P`,
`(h + addedH) - heals = P` and `(d + addedD) - dps = 3 * P`. -/
theorem conservation (n : Nat) (t h d t1 t2 : Int) (useBonus : Bool) (draws : List Int)
    (s : Sys) (ht : 0 ≤ t) (hh : 0 ≤ h) (hd : 0 ≤ d)
    (hroom : headroom (initSys n t h d t1 t2 useBonus draws) = true)
    (hr : Reaches (initSys n t h d t1 t2 useBonus draws) s) :
    (t + s.addedT) - s.pool.tanks = totalParties s ∧
    (h + s.addedH) - s.pool.heals = totalParties s ∧
    (d + s.addedD) - s.pool.dps = 3 * totalParties s := by
  have h0 : 0 ≤ (initSys n t h d t1 t2 useBonus draws).pool.tanks ∧
      0 ≤ (initSys n t h d t1 t2 useBonus draws).pool.heals ∧
      0 ≤ (initSys n t h d t1 t2 useBonus draws).pool.dps := ⟨ht, hh, hd⟩
  have hc := Reaches.conserved h0 hroom hr
  rw [totalParties_initSys] at hc
  simpa [initSys] using hc

theorem conservation_witness :
    headroom (initSys 2 1 1 4 1 1 true [3, 1]) = true ∧
    Reaches (initSys 2 1 1 4 1 1 true [3, 1])
      { pool := ⟨1, 0, 2, false⟩, t1 := 1, t2 := 1,
        workers := [⟨⟨1, false, 1, 1, 1⟩, Phase.waiting⟩, ⟨⟨2, false, 0, 0, 0⟩, Phase.stopped⟩],
        generator := none, addedT := 1, addedH := 0, addedD := 1 } ∧
    ((1:Int) + 1) - 1 = 1 ∧ ((1:Int) + 0) - 0 = 1 ∧ ((4:Int) + 1) - 2 = 3 * 1 :=
  have hr := runSchedule_reaches [none, some (0, 1), none, none, some (1, 1), some (0, 1)]
    (initSys 2 1 1 4 1 1 true [3, 1]) _ (by decide)
  ⟨by decide, hr,
    conservation 2 1 1 4 1 1 true [3, 1] _ (by decide) (by decide) (by decide) (by decide) hr⟩

/-! ## Workers stop only on permanent exhaustion -/

theorem Reaches.stopped_invariant {n : Nat} {t h d t1 t2 : Int} {useBonus : Bool}
    {draws : List Int} {s : Sys} (hr : Reaches (initSys n t h d t1 t2 useBonus draws) s) :
    (s.pool.recruiting = false → s.generator = none) ∧
    (someStopped s = true → s.pool.recruiting = false ∧ canFormPartyLocked s.pool = false) := by
  refine Reaches.invariant (fun s =>
    (s.pool.recruiting = false → s.generator = none) ∧
    (someStopped s = true → s.pool.recruiting = false ∧ canFormPartyLocked s.pool = false))
    ?_ ?_ s hr
  · constructor
    · intro hrec
      simp only [initSys] at hrec
      simp [initSys, hrec]
    · intro hst
      simp [someStopped, initSys] at hst
  · intro a b _ ha hab
    obtain ⟨ha1, ha2⟩ := ha
    simp only [someStopped] at ha2 ⊢
    rcases Step.kinds hab with ⟨i, w, hw, hp, hwp, hc, rfl⟩ | ⟨i, w, r, hw, hp, hc, rfl⟩ |
      ⟨i, w, hw, hp, rfl⟩ | ⟨hg, rfl⟩ | ⟨c, rest, hg, rfl⟩
    · refine ⟨ha1, fun _ => ⟨?_, hc⟩⟩
      simpa [waitPredicate, hc] using hwp
    · refine ⟨ha1, fun hst => ?_⟩
      dsimp only at hst
      rcases any_set _ _ i _ hst with h1 | h1
      · simp at h1
      · rw [(ha2 h1).2] at hc
        simp at hc
    · refine ⟨ha1, fun hst => ?_⟩
      dsimp only at hst
      rcases any_set _ _ i _ hst with h1 | h1
      · simp at h1
      · exact ha2 h1
    · refine ⟨fun _ => rfl, fun hst => ?_⟩
      have := ha1 (ha2 hst).1
      rw [hg] at this
      simp at this
    · have hrec : a.pool.recruiting = true := by
        cases hb : a.pool.recruiting with
        | true => rfl
        | false =>
          have := ha1 hb
          rw [hg] at this
          simp at this
      refine ⟨fun h1 => ?_, fun hst => ?_⟩
      · simp [addUnit, hrec] at h1
      · have := (ha2 hst).1
        rw [hrec] at this
        simp at this

theorem Reaches.length_workers {s0 s : Sys} (hr : Reaches s0 s) :
    s.workers.length = s0.workers.length := by
  refine Reaches.invariant (fun s => s.workers.length = s0.workers.length) rfl ?_ s hr
  intro a b _ ha hab
  rcases Step.kinds hab with ⟨i, w, _, _, _, _, rfl⟩ | ⟨i, w, r, _, _, _, rfl⟩ |
    ⟨i, w, _, _, rfl⟩ | ⟨_, rfl⟩ | ⟨c, rest, _, rfl⟩ <;> simpa using ha

/-- C5: in every reachable state of a run, if some worker has left its loop
then recruiting is false and the queue does not satisfy `tanks ≥ 1 ∧ heals ≥ 1
∧ dps ≥ 3`; in particular this holds once every worker (of at least one) has
stopped. -/
theorem stopped_only_when_exhausted (n : Nat) (t h d t1 t2 : Int) (useBonus : Bool)
    (draws : List Int) (s : Sys) (hr : Reaches (initSys n t h d t1 t2 useBonus draws) s) :
    (someStopped s = true →
      s.pool.recruiting = false ∧ ¬ (s.pool.tanks ≥ 1 ∧ s.pool.heals ≥ 1 ∧ s.pool.dps ≥ 3)) ∧
    (1 ≤ n → allStopped s = true →
      s.pool.recruiting = false ∧ ¬ (s.pool.tanks ≥ 1 ∧ s.pool.heals ≥ 1 ∧ s.pool.dps ≥ 3)) := by
  have hinv := (Reaches.stopped_invariant hr).2
  rw [canFormPartyLocked_false_iff] at hinv
  refine ⟨hinv, fun hn hall => hinv ?_⟩
  have hlen := Reaches.length_workers hr
  simp only [initSys, List.length_map, List.length_range] at hlen
  have hpos : 0 < s.workers.length := by omega
  exact any_of_all _ s.workers hpos hall

theorem stopped_only_when_exhausted_witness :
    Reaches (initSys 2 1 1 4 1 1 true [3, 1])
      { pool := ⟨1, 0, 2, false⟩, t1 := 1, t2 := 1,
        workers := [⟨⟨1, true, 1, 1, 1⟩, Phase.running⟩, ⟨⟨2, false, 0, 0, 0⟩, Phase.stopped⟩],
        generator := none, addedT := 1, addedH := 0, addedD := 1 } ∧
    (false = false ∧ ¬ ((1:Int) ≥ 1 ∧ (0:Int) ≥ 1 ∧ (2:Int) ≥ 3)) :=
  have hr := runSchedule_reaches [none, some (0, 1), none, none, some (1, 1)]
    (initSys 2 1 1 4 1 1 true [3, 1]) _ (by decide)
  ⟨hr, (stopped_only_when_exhausted 2 1 1 4 1 1 true [3, 1] _ hr).1 (by decide)⟩

/-! ## Termination without the bonus generator -/

theorem Reaches.no_generator {s0 s : Sys} (hr : Reaches s0 s) (hg : s0.generator = none) :
    s.generator = none ∧ s.pool.recruiting = s0.pool.recruiting ∧
    s.addedT = s0.addedT ∧ s.addedH = s0.addedH ∧ s.addedD = s0.addedD ∧
    s.t1 = s0.t1 ∧ s.t2 = s0.t2 := by
  refine Reaches.invariant (fun s => s.generator = none ∧
    s.pool.recruiting = s0.pool.recruiting ∧
    s.addedT = s0.addedT ∧ s.addedH = s0.addedH ∧ s.addedD = s0.addedD ∧
    s.t1 = s0.t1 ∧ s.t2 = s0.t2) ⟨hg, rfl, rfl, rfl, rfl, rfl, rfl⟩ ?_ s hr
  intro a b _ ha hab
  rcases Step.kinds hab with ⟨i, w, _, _, _, _, rfl⟩ | ⟨i, w, r, _, _, _, rfl⟩ |
    ⟨i, w, _, _, rfl⟩ | ⟨hg2, rfl⟩ | ⟨c, rest, hg2, rfl⟩
  · exact ha
  · exact ha
  · exact ha
  · rw [ha.1] at hg2; simp at hg2
  · rw [ha.1] at hg2; simp at hg2

/-- Without generator every step lowers `stepsLeft` by exactly one. -/
theorem Step.stepsLeft_decreases {s s2 : Sys} (h : Step s s2) (hg : s.generator = none) :
    stepsLeft s2 + 1 = stepsLeft s := by
  simp only [stepsLeft, supply]
  rcases Step.kinds h with ⟨i, w, hw, hp, _, _, rfl⟩ | ⟨i, w, r, hw, hp, _, rfl⟩ |
    ⟨i, w, hw, hp, rfl⟩ | ⟨hg2, rfl⟩ | ⟨c, rest, hg2, rfl⟩
  · dsimp only
    rw [sum_map_set _ _ i w _ hw]
    dsimp only
    rw [hp]
    simp only [phaseRank]
    omega
  · dsimp only [subtractParty]
    rw [sum_map_set _ _ i w _ hw]
    dsimp only
    rw [hp]
    simp only [phaseRank]
    omega
  · dsimp only
    rw [sum_map_set _ _ i w _ hw]
    dsimp only
    rw [hp]
    simp only [phaseRank]
    omega
  · rw [hg] at hg2; simp at hg2
  · rw [hg] at hg2; simp at hg2

theorem StepsIn.stepsLeft_eq {s0 s : Sys} {k : Nat} (h : StepsIn s0 k s)
    (hg : s0.generator = none) : (k : Int) + stepsLeft s = stepsLeft s0 := by
  induction h with
  | zero => simp
  | succ k a b hk hab ih =>
    have hga := (Reaches.no_generator ⟨k, hk⟩ hg).1
    have := Step.stepsLeft_decreases hab hga
    push_cast
    omega

theorem phaseRank_sum_nonneg (l : List Worker) :
    0 ≤ (l.map (fun w => phaseRank w.phase)).sum := by
  apply List.sum_nonneg
  intro x hx
  simp only [List.mem_map] at hx
  obtain ⟨w, _, rfl⟩ := hx
  cases w.phase <;> simp [phaseRank]

theorem stepsLeft_initSys (n : Nat) (t h d t1 t2 : Int) (useBonus : Bool) (draws : List Int) :
    stepsLeft (initSys n t h d t1 t2 useBonus draws) = 2 * supply t h d + n := by
  have hsum : ∀ l : List Nat, ((l.map (fun (i : Nat) =>
      ({ stats := InstanceStats.new ((i : Int) + 1), phase := Phase.waiting } : Worker))).map
      (fun w => phaseRank w.phase)).sum = l.length := by
    intro l
    induction l with
    | nil => simp
    | cons a l ih =>
      simp only [List.map_cons, List.sum_cons, List.length_cons]
      rw [ih]
      simp only [phaseRank]
      push_cast
      ring
  simp only [stepsLeft, initSys]
  rw [hsum]
  simp

theorem swapDurations_le (t1 t2 : Int) : (swapDurations t1 t2).1 ≤ (swapDurations t1 t2).2 := by
  unfold swapDurations
  split <;> simp <;> omega

/-- A worker that has not stopped can move as soon as recruiting is false. -/
theorem stepWorker_enabled (s : Sys) (i : Nat) (w : Worker) (r : Int)
    (hw : s.workers[i]? = some w) (hp : w.phase ≠ Phase.stopped)
    (hrec : s.pool.recruiting = false) : ∃ s2, stepWorker i r s = some s2 := by
  unfold stepWorker
  rw [hw]
  simp only
  unfold workerStep
  cases hph : w.phase with
  | waiting =>
    simp only
    unfold awaitParty
    have hwp : waitPredicate s.pool = true := by simp [waitPredicate, hrec]
    rw [if_pos hwp]
    cases canFormPartyLocked s.pool <;> simp
  | running => simp
  | stopped => exact absurd hph hp

theorem Reaches.head {s s2 s3 : Sys} (hs : Step s s2) (h : Reaches s2 s3) : Reaches s s3 := by
  obtain ⟨k, hk⟩ := h
  exact ⟨k + 1, StepsIn.cons hs hk⟩

/-- Facts about every state reached when the run starts without generator. -/
theorem Reaches.no_bonus_facts {n : Nat} {t h d t1 t2 : Int} {draws : List Int} {s : Sys}
    (ht : 0 ≤ t) (hh : 0 ≤ h) (hd : 0 ≤ d)
    (hr : Reaches (initSys n t h d t1 t2 false draws) s) :
    s.generator = none ∧ s.pool.recruiting = false ∧ s.t1 ≤ s.t2 ∧
    0 ≤ s.pool.tanks ∧ 0 ≤ s.pool.heals ∧ 0 ≤ s.pool.dps ∧
    s.pool.tanks = t - totalParties s ∧ s.pool.heals = h - totalParties s ∧
    s.pool.dps = d - 3 * totalParties s := by
  have hg := Reaches.no_generator hr (by simp [initSys])
  have h0 : 0 ≤ (initSys n t h d t1 t2 false draws).pool.tanks ∧
      0 ≤ (initSys n t h d t1 t2 false draws).pool.heals ∧
      0 ≤ (initSys n t h d t1 t2 false draws).pool.dps := ⟨ht, hh, hd⟩
  have hroom : headroom (initSys n t h d t1 t2 false draws) = true := rfl
  have hnn := (Reaches.pool_nonneg h0 hroom hr).1
  have hc := Reaches.conserved h0 hroom hr
  rw [totalParties_initSys] at hc
  obtain ⟨hg1, hg2, hg3, hg4, hg5, hg6, hg7⟩ := hg
  simp only [initSys] at hg2 hg3 hg4 hg5 hg6 hg7 hc
  refine ⟨hg1, hg2, ?_, hnn.1, hnn.2.1, hnn.2.2, ?_, ?_, ?_⟩
  · rw [hg6, hg7]; exact swapDurations_le t1 t2
  · omega
  · omega
  · omega

theorem Reaches.exists_allStopped {s0 : Sys} (hg : s0.generator = none)
    (hrec : s0.pool.recruiting = false) (hle : s0.t1 ≤ s0.t2)
    (hnn : 0 ≤ s0.pool.tanks ∧ 0 ≤ s0.pool.heals ∧ 0 ≤ s0.pool.dps) :
    ∀ (k : Nat) (s : Sys), Reaches s0 s → stepsLeft s ≤ k →
      ∃ s2, Reaches s s2 ∧ allStopped s2 = true := by
  intro k
  induction k with
  | zero =>
    intro s hr hk
    cases hall : allStopped s with
    | true => exact ⟨s, Reaches.refl s, hall⟩
    | false =>
      exfalso
      obtain ⟨i, w, hw, hf⟩ := exists_of_all_false _ _ hall
      have hfacts := Reaches.no_generator hr hg
      obtain ⟨s2, hs2⟩ := stepWorker_enabled s i w s.t1 hw (by simpa using hf)
        (by rw [hfacts.2.1, hrec])
      have hstep : Step s s2 :=
        Step.worker s s2 i s.t1 (le_refl _) (by rw [hfacts.2.2.2.2.2.1, hfacts.2.2.2.2.2.2]; exact hle) hs2
      have hdec := Step.stepsLeft_decreases hstep hfacts.1
      have hr2 : Reaches s0 s2 := Reaches.tail hr hstep
      have hroom0 : headroom s0 = true := by simp [headroom, hg]
      have hnn2 := (Reaches.pool_nonneg hnn hroom0 hr2).1
      have hrank := phaseRank_sum_nonneg s2.workers
      have : 0 ≤ stepsLeft s2 := by
        simp only [stepsLeft, supply]
        omega
      push_cast at hk
      omega
  | succ k ih =>
    intro s hr hk
    cases hall : allStopped s with
    | true => exact ⟨s, Reaches.refl s, hall⟩
    | false =>
      obtain ⟨i, w, hw, hf⟩ := exists_of_all_false _ _ hall
      have hfacts := Reaches.no_generator hr hg
      obtain ⟨s2, hs2⟩ := stepWorker_enabled s i w s.t1 hw (by simpa using hf)
        (by rw [hfacts.2.1, hrec])
      have hstep : Step s s2 :=
        Step.worker s s2 i s.t1 (le_refl _) (by rw [hfacts.2.2.2.2.2.1, hfacts.2.2.2.2.2.2]; exact hle) hs2
      have hdec := Step.stepsLeft_decreases hstep hfacts.1
      obtain ⟨s3, hr3, hall3⟩ := ih s2 (Reaches.tail hr hstep) (by push_cast at hk; omega)
      exact ⟨s3, Reaches.head hstep hr3, hall3⟩

/-- C6: with the bonus generator disabled (recruiting false from the start),
`n ≥ 1` workers and an initial supply `(t, h, d)`, every execution is finite
(at most `2 * k + n` steps, `k = min(t, h, d / 3)`), a state in which some
worker has not stopped always has a next step, a state with all workers stopped
is always reached, and in such a state exactly `k` parties have been formed and
the queue is `(t - k, h - k, d - 3 * k)`. -/
theorem termination_no_bonus (n : Nat) (t h d t1 t2 : Int) (draws : List Int)
    (hn : 1 ≤ n) (ht : 0 ≤ t) (hh : 0 ≤ h) (hd : 0 ≤ d) :
    (∀ (m : Nat) (s : Sys), StepsIn (initSys n t h d t1 t2 false draws) m s →
      (m : Int) ≤ 2 * supply t h d + n) ∧
    (∀ s : Sys, Reaches (initSys n t h d t1 t2 false draws) s → allStopped s = false →
      ∃ s2, Step s s2) ∧
    (∀ s : Sys, Reaches (initSys n t h d t1 t2 false draws) s →
      ∃ s2, Reaches s s2 ∧ allStopped s2 = true) ∧
    (∀ s : Sys, Reaches (initSys n t h d t1 t2 false draws) s → allStopped s = true →
      totalParties s = supply t h d ∧
      s.pool.tanks = t - supply t h d ∧
      s.pool.heals = h - supply t h d ∧
      s.pool.dps = d - 3 * supply t h d) := by
  have hg0 : (initSys n t h d t1 t2 false draws).generator = none := by simp [initSys]
  refine ⟨?_, ?_, ?_, ?_⟩
  · intro m s hm
    have heq := StepsIn.stepsLeft_eq hm hg0
    rw [stepsLeft_initSys] at heq
    have hf := Reaches.no_bonus_facts ht hh hd ⟨m, hm⟩
    have hrank := phaseRank_sum_nonneg s.workers
    have hpos : 0 ≤ stepsLeft s := by
      simp only [stepsLeft, supply]
      omega
    omega
  · intro s hr hall
    obtain ⟨i, w, hw, hf⟩ := exists_of_all_false _ _ hall
    have hfacts := Reaches.no_bonus_facts ht hh hd hr
    obtain ⟨s2, hs2⟩ := stepWorker_enabled s i w s.t1 hw (by simpa using hf) hfacts.2.1
    exact ⟨s2, Step.worker s s2 i s.t1 (le_refl _) hfacts.2.2.1 hs2⟩
  · intro s hr
    have hinit := Reaches.no_bonus_facts ht hh hd
      (Reaches.refl (initSys n t h d t1 t2 false draws))
    have hrank := phaseRank_sum_nonneg s.workers
    have hf := Reaches.no_bonus_facts ht hh hd hr
    have hpos : 0 ≤ stepsLeft s := by
      simp only [stepsLeft, supply]
      omega
    refine Reaches.exists_allStopped hg0 hinit.2.1 hinit.2.2.1
      ⟨hinit.2.2.2.1, hinit.2.2.2.2.1, hinit.2.2.2.2.2.1⟩ (stepsLeft s).toNat s hr ?_
    rw [Int.toNat_of_nonneg hpos]
  · intro s hr hall
    have hf := Reaches.no_bonus_facts ht hh hd hr
    have hlen := Reaches.length_workers hr
    simp only [initSys, List.length_map, List.length_range] at hlen
    have hposlen : 0 < s.workers.length := by omega
    have hsome : someStopped s = true := any_of_all _ s.workers hposlen hall
    have hcf := ((Reaches.stopped_invariant hr).2 hsome).2
    rw [canFormPartyLocked_false_iff] at hcf
    simp only [supply]
    omega

theorem termination_no_bonus_witness :
    Reaches (initSys 2 1 1 3 1 1 false [])
      { pool := ⟨0, 0, 0, false⟩, t1 := 1, t2 := 1,
        workers := [⟨⟨1, false, 1, 1, 1⟩, Phase.stopped⟩, ⟨⟨2, false, 0, 0, 0⟩, Phase.stopped⟩],
        generator := none, addedT := 0, addedH := 0, addedD := 0 } ∧
    supply 1 1 3 = 1 ∧
    ((1:Int) = supply 1 1 3 ∧ (0:Int) = 1 - supply 1 1 3 ∧ (0:Int) = 1 - supply 1 1 3 ∧
      (0:Int) = 3 - 3 * supply 1 1 3) :=
  have hr := runSchedule_reaches [some (0, 1), some (1, 1), some (0, 1), some (0, 1)]
    (initSys 2 1 1 3 1 1 false []) _ (by decide)
  ⟨hr, by decide,
    (termination_no_bonus 2 1 1 3 1 1 [] (by decide) (by decide) (by decide) (by decide)).2.2.2
      _ hr (by decide)⟩

/-! ## Duration configuration -/

/-- What the configuration step does guarantee: both bounds are positive, the
range is ordered, and its lower end is at most 15. -/
theorem readDurations_ordered (input : Input) (lo hi : Int)
    (h : readDurations input = some (lo, hi)) : 0 < lo ∧ lo ≤ hi ∧ lo ≤ 15 := by
  have hpos : ∀ (inp : Input) (v : Int) (rest : Input),
      readPositiveInt inp = some (v, rest) → 0 < v := by
    intro inp
    induction inp with
    | nil => intro v rest h; simp [readPositiveInt] at h
    | cons a l ih =>
      intro v rest h
      cases a with
      | none => exact ih v rest (by simpa [readPositiveInt] using h)
      | some x =>
        simp only [readPositiveInt] at h
        split at h
        · exact ih v rest h
        · simp only [Option.some.injEq, Prod.mk.injEq] at h
          omega
  have hmax : ∀ (inp : Input) (v : Int) (rest : Input),
      readMaxDuration inp = some (v, rest) → 0 < v ∧ v ≤ 15 := by
    intro inp
    induction inp with
    | nil => intro v rest h; simp [readMaxDuration] at h
    | cons a l ih =>
      intro v rest h
      cases a with
      | none => exact ih v rest (by simpa [readMaxDuration] using h)
      | some x =>
        simp only [readMaxDuration] at h
        split at h
        · exact ih v rest h
        · split at h
          · simp only [Option.some.injEq, Prod.mk.injEq] at h
            omega
          · exact ih v rest h
  unfold readDurations at h
  cases h1 : readPositiveInt input with
  | none => rw [h1] at h; simp at h
  | some x =>
    obtain ⟨a, rest⟩ := x
    rw [h1] at h
    simp only at h
    cases h2 : readMaxDuration rest with
    | none => rw [h2] at h; simp at h
    | some y =>
      obtain ⟨b, rest2⟩ := y
      rw [h2] at h
      simp only [Option.some.injEq] at h
      have ha := hpos input a rest h1
      have hb := hmax rest b rest2 h2
      unfold swapDurations at h
      split at h <;> simp only [Prod.mk.injEq] at h <;> omega

/-- The loop of lines 256-260 written with `readPositiveInt`, as in `main`. -/
theorem readMaxDuration_eq (input : Input) :
    readMaxDuration input =
      match readPositiveInt input with
      | none => none
      | some (v, rest) => if v ≤ 15 then some (v, rest) else readMaxDuration rest := by
  induction input with
  | nil => simp [readMaxDuration, readPositiveInt]
  | cons a l ih =>
    cases a with
    | none => simpa [readMaxDuration, readPositiveInt] using ih
    | some x =>
      simp only [readMaxDuration, readPositiveInt]
      split
      · exact ih
      · rfl

/-- C8: the inputs `t1 = 100`, `t2 = 5` are accepted by the prompts, and after
the configuration step the effective range is `[5, 100]`: its upper end, and
the durations drawn from it, exceed 15. -/
theorem readDurations_exceeds_cap :
    readDurations [some 100, some 5] = some (5, 100) ∧
    ∃ r : Int, (5 ≤ r ∧ r ≤ 100) ∧ 15 < r :=
  ⟨by decide, 100, by decide, by decide⟩

/-! ## Monitor -/

/-- On an ordered range `clamp` is the usual two-sided limit. -/
theorem clamp_eq_min_max (x lo hi : Int) (h : lo ≤ hi) :
    clamp x lo hi = min hi (max lo x) := by
  unfold clamp
  omega

/-- C9: the elapsed value rendered by `statusMonitor` is
`clamp(now - runStart, 0, runDuration)` for an active instance and `0` for an
idle one, which is rendered as `0/0`; for an active instance with
`runDuration ≥ 0` it lies between `0` and `runDuration`. -/
theorem monitorTime_spec (isActive : Bool) (diff currentRunDuration : Int) :
    monitorTime isActive diff currentRunDuration =
      (if isActive then (clamp diff 0 currentRunDuration, currentRunDuration) else (0, 0)) ∧
    (isActive = true → 0 ≤ currentRunDuration →
      0 ≤ (monitorTime isActive diff currentRunDuration).1 ∧
      (monitorTime isActive diff currentRunDuration).1 ≤ currentRunDuration) := by
  unfold monitorTime clamp
  cases isActive
  · simp
  · simp only [if_true, true_implies]
    split_ifs <;> simp only [Prod.mk.injEq, and_true] <;> omega

/-! ## Lock nesting -/

/-- C10 as stated fails: in a pass that forms a party, `runMutex` is acquired
and the run fields are written while `g_queueMutex` is held. -/
theorem workerPass_nests_runMutex :
    (heldBefore [] (workerPass ⟨1, 1, 3, false⟩)).all noNesting = false ∧
    (heldBefore [] (workerPass ⟨1, 1, 3, false⟩)).contains
      ([Mutex.queue], Action.lock Mutex.run) = true := by
  decide

/-- C10 amended: a pass of the worker loop that forms a party acquires
`runMutex` while exactly `g_queueMutex` is held, writes the run fields and
releases `runMutex` with exactly these two locks held, and releases
`runMutex` before `g_queueMutex`; a pass that forms no party never takes
`runMutex`.  In every pass `g_queueMutex` is acquired with no lock held and
released when it is the only lock held, no lock is acquired while `runMutex`
is held, the worker sleeps with no lock held, and no lock is held at the end
of the pass. -/
theorem workerPass_nestedDiscipline (p : Pool) :
    (heldBefore [] (workerPass p)).all nestedDiscipline = true ∧
    heldAtEnd [] (workerPass p) = [] ∧
    (heldBefore [] (workerPass p)).contains ([], Action.lock Mutex.queue) = true ∧
    (heldBefore [] (workerPass p)).contains ([Mutex.queue], Action.unlock Mutex.queue) = true ∧
    (heldBefore [] (workerPass p)).contains ([Mutex.queue], Action.lock Mutex.run)
      = canFormPartyLocked p ∧
    (heldBefore [] (workerPass p)).contains ([Mutex.run, Mutex.queue], Action.writeRunFields)
      = canFormPartyLocked p ∧
    (heldBefore [] (workerPass p)).contains ([Mutex.run, Mutex.queue], Action.unlock Mutex.run)
      = canFormPartyLocked p ∧
    (workerPass p).contains (Action.lock Mutex.run) = canFormPartyLocked p ∧
    decide ((workerPass p).indexOf (Action.unlock Mutex.run)
      < (workerPass p).indexOf (Action.unlock Mutex.queue)) = canFormPartyLocked p := by
  unfold workerPass
  cases canFormPartyLocked p <;> decide

end DungeonQueue
